import Mathlib

/-!
Verification of the `maestro/termoutput.py` terminal-output module.

The module has two classes:

* `OutputManager` ("Canvas"): reserves `lines` terminal rows, and serializes
  every raw write to the shared stream under a single mutex via `_print`.
* `OutputFormatter` ("Line Formatter"): tracks an optional `_prefix` and an
  optional `_committed` string and renders through a printer callback bound
  to one position.

We embed the Python code shallowly: optional strings become `Option String`,
Python truthiness of such a value becomes `truthy`, Python `str.format` of a
possibly-`None` value becomes `pyStr`, and each `sys.stdout.write` call is a
`String` item; the body of `OutputManager._print` becomes the list of write
calls it performs (`printChunks`).  The threading in `_print` is modelled by
a small-step semantics further below.
-/

/-- Python truthiness of an optional string: `None` and `''` are falsy,
every other string is truthy. -/
def truthy : Option String → Bool
  | none => false
  | some s => s ≠ ""

/-- Python `'{}'.format(v)` on an optional string: `None` prints as the
literal text `None`. -/
def pyStr : Option String → String
  | none => "None"
  | some s => s

/-- CSI escape sequence `ESC [ n c` (e.g. `csi 3 "A"` is cursor-up-3). -/
def csi (n : Nat) (c : String) : String := "\x1b[" ++ toString n ++ c

/-- Python `'\n' * n`. -/
def nlRepeat : Nat → String
  | 0 => ""
  | n + 1 => "\n" ++ nlRepeat n

/-- The successive `sys.stdout.write` calls performed by
`OutputManager._print(s, pos)` while holding the lock (the trailing `flush`
emits no bytes).  `pos = 0` models both Python `pos=None` and `pos=0`,
which are equally falsy under `if pos:`. -/
def printChunks (s : Option String) (pos : Nat) : List String :=
  (if pos = 0 then [] else [csi pos "B"])
    ++ ["\r" ++ pyStr s ++ "\x1b[K\r"]
    ++ (if pos = 0 then [] else [csi pos "A"])

/-- All bytes emitted by one `_print` call, in order. -/
def printEmission (s : Option String) (pos : Nat) : String :=
  String.join (printChunks s pos)

/-- The payload string built by `OutputManager.start`:
`'{}\033[{}A'.format('\n' * self._lines, self._lines)`. -/
def startPayload (lines : Nat) : String := nlRepeat lines ++ csi lines "A"

/-- Write calls performed by `OutputManager.start` (it calls `_print`
with no position). -/
def startChunks (lines : Nat) : List String := printChunks (some (startPayload lines)) 0

/-- Write calls performed by `OutputManager.end`:
`self._print('\033[{}B'.format(self._lines))`. -/
def endChunks (lines : Nat) : List String := printChunks (some (csi lines "B")) 0

/-- State of an `OutputFormatter`: the immutable `_prefix` (here `pfx`)
and the mutable `_committed`. -/
structure FmtState where
  pfx : Option String
  committed : Option String
deriving DecidableEq, Repr

/-- `OutputFormatter.__init__(printer, prefix)`: `_committed` starts equal
to `_prefix`. -/
def initFmt (p : Option String) : FmtState := ⟨p, p⟩

/-- `OutputFormatter.commit(s)`: returns the new state and the value passed
to the printer.  Faithful to the two truthiness-guarded branches of the
source followed by `self._printer(self._committed)`. -/
def commit (st : FmtState) (s : Option String) : FmtState × Option String :=
  let c :=
    if truthy st.committed && truthy s then
      some (pyStr st.committed ++ " " ++ pyStr s)
    else if !truthy st.committed && truthy s then
      s
    else
      st.committed
  (⟨st.pfx, c⟩, c)

/-- `OutputFormatter.pending(s)`: the list of values passed to the printer
(the source has two independent `if` statements, each guarding one call;
the state is never assigned). -/
def pendingOut (st : FmtState) (s : String) : List (Option String) :=
  (if truthy st.committed && decide (s ≠ "") then
    [some (pyStr st.committed ++ " " ++ s)]
  else [])
    ++ (if !truthy st.committed && decide (s ≠ "") then [some s] else [])

/-- `OutputFormatter.reset()`: `self._committed = self._prefix` followed by
`self.commit()`. -/
def reset (st : FmtState) : FmtState × Option String :=
  commit ⟨st.pfx, st.pfx⟩ none

/-- One call on a formatter. -/
inductive FOp where
  | commit : Option String → FOp
  | pending : String → FOp
  | reset : FOp

/-- Execute one formatter call: new state and the list of printed values. -/
def stepFmt (st : FmtState) : FOp → FmtState × List (Option String)
  | FOp.commit s => ((commit st s).1, [(commit st s).2])
  | FOp.pending s => (st, pendingOut st s)
  | FOp.reset => ((reset st).1, [(reset st).2])

/-- Execute a sequence of formatter calls, collecting all printed values. -/
def runFmt (st : FmtState) : List FOp → FmtState × List (Option String)
  | [] => (st, [])
  | op :: ops =>
    let r := stepFmt st op
    let rest := runFmt r.1 ops
    (rest.1, r.2 ++ rest.2)

/-- The values printed by a fresh formatter with prefix `p` during a
sequence of `commit` calls. -/
def commitOutputs (p : Option String) (ss : List (Option String)) : List (Option String) :=
  (runFmt (initFmt p) (ss.map FOp.commit)).2

/-- All bytes emitted by `OutputManager.start` with `n` lines. -/
def startEmission (n : Nat) : String := String.join (startChunks n)

/-- All bytes emitted by `OutputManager.end` with `n` lines. -/
def endEmission (n : Nat) : String := String.join (endChunks n)

/-- Modelled from the spec: the byte sequence the spec's emission table in
section 6 claims for `start()` with `n` lines (`n` newline characters, then
`CSI n A`, and nothing else).  Kept separate from the source-derived
`startEmission` so the two can be compared. -/
def specTableStart (n : Nat) : String := nlRepeat n ++ csi n "A"

/-- Modelled from the spec: the byte sequence the spec's emission table in
section 6 claims for a write of `s` at position `pos` (for `pos ≠ 0`:
`CSI pos B`, `\r`, the text, `CSI K`, `CSI pos A`; for `pos = 0`: `\r`, the
text, `CSI K`; nothing else). -/
def specTableWrite (s : String) (pos : Nat) : String :=
  if pos = 0 then "\r" ++ s ++ "\x1b[K"
  else csi pos "B" ++ "\r" ++ s ++ "\x1b[K" ++ csi pos "A"

/-- Modelled from the spec: the byte sequence the spec's emission table in
section 6 claims for `end()` with `n` lines (`CSI n B` and nothing else). -/
def specTableEnd (n : Nat) : String := csi n "B"

/-- One thread-level action on the shared stream: acquire the Canvas lock,
perform one `sys.stdout.write` call, or release the lock.  The `flush` at
the end of `_print` emits no bytes and is not modelled. -/
inductive Instr where
  | acq : Instr
  | wr : String → Instr
  | rel : Instr
deriving DecidableEq, Repr

/-- The instruction sequence of one `_print(s, pos)` call: acquire the lock,
perform the write calls of `printChunks`, release the lock.  This follows
the `with self._lock:` block of the source, which spans all three steps. -/
def printProg (c : Option String × Nat) : List Instr :=
  Instr.acq :: ((printChunks c.1 c.2).map Instr.wr ++ [Instr.rel])

/-- The instruction sequence of a thread performing a list of `_print`
calls in order. -/
def threadProg : List (Option String × Nat) → List Instr
  | [] => []
  | c :: cs => printProg c ++ threadProg cs

/-- Global state of two threads sharing the Canvas lock: the current lock
owner (`none` when the lock is free), each thread's remaining instructions,
and the ordered trace of strings written to the sink so far. -/
structure CState where
  owner : Option Bool
  p1 : List Instr
  p2 : List Instr
  tr : List String
deriving Repr

/-- Interleaved small-step scheduling of the two threads.  Either thread may
be scheduled at any moment; `acq` proceeds only when the lock is free (a
`threading.Lock` blocks otherwise); `wr` appends to the sink trace; `rel`
frees the lock. -/
inductive CStep : CState → CState → Prop
  | acq1 (p q t) : CStep ⟨none, Instr.acq :: p, q, t⟩ ⟨some true, p, q, t⟩
  | wr1 (o s p q t) : CStep ⟨o, Instr.wr s :: p, q, t⟩ ⟨o, p, q, t ++ [s]⟩
  | rel1 (o p q t) : CStep ⟨o, Instr.rel :: p, q, t⟩ ⟨none, p, q, t⟩
  | acq2 (p q t) : CStep ⟨none, p, Instr.acq :: q, t⟩ ⟨some false, p, q, t⟩
  | wr2 (o s p q t) : CStep ⟨o, p, Instr.wr s :: q, t⟩ ⟨o, p, q, t ++ [s]⟩
  | rel2 (o p q t) : CStep ⟨o, p, Instr.rel :: q, t⟩ ⟨none, p, q, t⟩

/-- Any number of scheduler steps. -/
abbrev Reaches : CState → CState → Prop := Relation.ReflTransGen CStep

/-- The list `zs` is an order-preserving interleaving of `xs` and `ys`. -/
inductive Interleave {α : Type} : List α → List α → List α → Prop
  | nil : Interleave [] [] []
  | left (x xs ys zs) : Interleave xs ys zs → Interleave (x :: xs) ys (x :: zs)
  | right (y xs ys zs) : Interleave xs ys zs → Interleave xs (y :: ys) (y :: zs)

/-- The complete move-write-move units of a list of `_print` calls. -/
def chunksOf (cs : List (Option String × Nat)) : List (List String) :=
  cs.map (fun c => printChunks c.1 c.2)

/-- Inductive invariant of the two-thread system running call lists `A` and
`B`: some prefixes `d1` of `A` and `d2` of `B` are fully written, their
complete units interleaved in the trace; if a thread holds the lock it is
midway through writing the chunks of its next call, and the other thread is
parked at a call boundary. -/
def LockInv (A B : List (Option String × Nat)) (st : CState) : Prop :=
  ∃ d1 d2 units, Interleave (chunksOf d1) (chunksOf d2) units ∧
    ((st.owner = none ∧
        (∃ r1, A = d1 ++ r1 ∧ st.p1 = threadProg r1) ∧
        (∃ r2, B = d2 ++ r2 ∧ st.p2 = threadProg r2) ∧
        st.tr = units.flatten) ∨
      (st.owner = some true ∧
        (∃ c w rem r1, A = d1 ++ c :: r1 ∧ printChunks c.1 c.2 = w ++ rem ∧
          st.p1 = rem.map Instr.wr ++ Instr.rel :: threadProg r1 ∧
          st.tr = units.flatten ++ w) ∧
        (∃ r2, B = d2 ++ r2 ∧ st.p2 = threadProg r2)) ∨
      (st.owner = some false ∧
        (∃ r1, A = d1 ++ r1 ∧ st.p1 = threadProg r1) ∧
        (∃ c w rem r2, B = d2 ++ c :: r2 ∧ printChunks c.1 c.2 = w ++ rem ∧
          st.p2 = rem.map Instr.wr ++ Instr.rel :: threadProg r2 ∧
          st.tr = units.flatten ++ w)))

/-- Atoms of terminal output, for the cursor-row model. -/
inductive Atom where
  | nl : Atom
  | cr : Atom
  | clearEol : Atom
  | up : Nat → Atom
  | down : Nat → Atom

/-- Bytes of one atom. -/
def atomStr : Atom → String
  | Atom.nl => "\n"
  | Atom.cr => "\r"
  | Atom.clearEol => "\x1b[K"
  | Atom.up n => csi n "A"
  | Atom.down n => csi n "B"

/-- Atom decomposition of the `start()` emission. -/
def startAtoms (n : Nat) : List Atom :=
  [Atom.cr] ++ List.replicate n Atom.nl ++ [Atom.up n, Atom.clearEol, Atom.cr]

/-- Atom decomposition of the `end()` emission. -/
def endAtoms (n : Nat) : List Atom :=
  [Atom.cr, Atom.down n, Atom.clearEol, Atom.cr]

/-- Cursor-row semantics on a terminal of `h` rows (row `0` at the top, the
bottom row is `h - 1`): a newline on the bottom row scrolls the screen and
keeps the row; cursor-up and cursor-down clamp at the screen edges and, as
real terminals do, treat the CSI parameter `0` as `1`. -/
def stepRow (h : Nat) (r : Nat) : Atom → Nat
  | Atom.nl => if r < h - 1 then r + 1 else r
  | Atom.up n => r - max n 1
  | Atom.down n => min (r + max n 1) (h - 1)
  | _ => r

/-- Cursor row after processing a list of atoms. -/
def rowAfter (h : Nat) (r : Nat) (atoms : List Atom) : Nat :=
  atoms.foldl (stepRow h) r

theorem commit_pfx (st : FmtState) (s : Option String) : (commit st s).1.pfx = st.pfx := by
  simp [commit]

theorem stepFmt_pfx (st : FmtState) (op : FOp) : (stepFmt st op).1.pfx = st.pfx := by
  cases op <;> simp [stepFmt, reset, commit]

theorem runFmt_pfx (ops : List FOp) (st : FmtState) : (runFmt st ops).1.pfx = st.pfx := by
  induction ops generalizing st with
  | nil => rfl
  | cons op ops ih => simp [runFmt, ih, stepFmt_pfx]

theorem commit_committed_ne_none (st : FmtState) (s : Option String)
    (h : st.committed ≠ none) : (commit st s).1.committed ≠ none := by
  dsimp only [commit]
  split
  · simp
  · split
    · rename_i h1 h2
      intro hs
      subst hs
      simp [truthy] at h2
    · exact h

theorem truthy_some_ne_none (v : Option String) (h : truthy v = true) : v ≠ none := by
  cases v with
  | none => simp [truthy] at h
  | some s => simp

theorem commit_truthy_arg (st : FmtState) (s : Option String) (h : truthy s = true) :
    (commit st s).1.committed ≠ none := by
  dsimp only [commit]
  split
  · simp
  · split
    · exact truthy_some_ne_none s h
    · rename_i h1 h2
      rw [h] at h1 h2
      simp at h1 h2
      rw [h1] at h2
      simp at h2

theorem threadProg_cons (c : Option String × Nat) (cs : List (Option String × Nat)) :
    threadProg (c :: cs) =
      Instr.acq :: ((printChunks c.1 c.2).map Instr.wr ++ (Instr.rel :: threadProg cs)) := by
  simp [threadProg, printProg, List.append_assoc]

theorem threadProg_nil_iff (cs : List (Option String × Nat)) :
    threadProg cs = [] ↔ cs = [] := by
  cases cs with
  | nil => simp [threadProg]
  | cons c cs => simp [threadProg_cons]

theorem threadProg_ne_wr (cs : List (Option String × Nat)) (s : String) (p : List Instr) :
    threadProg cs ≠ Instr.wr s :: p := by
  cases cs with
  | nil => simp [threadProg]
  | cons c cs => simp [threadProg_cons]

theorem threadProg_ne_rel (cs : List (Option String × Nat)) (p : List Instr) :
    threadProg cs ≠ Instr.rel :: p := by
  cases cs with
  | nil => simp [threadProg]
  | cons c cs => simp [threadProg_cons]

theorem interleave_concat_left {α : Type} (x : α) (xs ys zs : List α)
    (h : Interleave xs ys zs) : Interleave (xs ++ [x]) ys (zs ++ [x]) := by
  induction h with
  | nil => exact Interleave.left x [] [] [] Interleave.nil
  | left a as bs cs _ ih => exact Interleave.left a _ _ _ ih
  | right b as bs cs _ ih => exact Interleave.right b _ _ _ ih

theorem interleave_concat_right {α : Type} (y : α) (xs ys zs : List α)
    (h : Interleave xs ys zs) : Interleave xs (ys ++ [y]) (zs ++ [y]) := by
  induction h with
  | nil => exact Interleave.right y [] [] [] Interleave.nil
  | left a as bs cs _ ih => exact Interleave.left a _ _ _ ih
  | right b as bs cs _ ih => exact Interleave.right b _ _ _ ih

theorem lockInv_step (A B : List (Option String × Nat)) {s1 s2 : CState}
    (hs : CStep s1 s2) (hI : LockInv A B s1) : LockInv A B s2 := by
  cases hs with
  | acq1 p q t =>
    obtain ⟨d1, d2, units, hint, hcase⟩ := hI
    rcases hcase with ⟨ho, ⟨r1, hA, hp1⟩, ⟨r2, hB, hp2⟩, htr⟩ | ⟨ho, _, _⟩ | ⟨ho, _, _⟩
    · have hp1a : Instr.acq :: p = threadProg r1 := hp1
      have htra : t = units.flatten := htr
      cases r1 with
      | nil => simp [threadProg] at hp1a
      | cons c r1 =>
        rw [threadProg_cons] at hp1a
        injection hp1a with _ hp
        refine ⟨d1, d2, units, hint,
          Or.inr (Or.inl ⟨rfl, ⟨c, [], printChunks c.1 c.2, r1, hA,
            (List.nil_append _).symm, hp, ?_⟩, ⟨r2, hB, hp2⟩⟩)⟩
        show t = units.flatten ++ []
        rw [List.append_nil]
        exact htra
    · exact Option.noConfusion ho
    · exact Option.noConfusion ho
  | wr1 o s p q t =>
    obtain ⟨d1, d2, units, hint, hcase⟩ := hI
    rcases hcase with ⟨ho, ⟨r1, hA, hp1⟩, _, _⟩ |
      ⟨ho, ⟨c, w, rem, r1, hA, hchunk, hp1, htr⟩, hside2⟩ | ⟨ho, ⟨r1, hA, hp1⟩, _⟩
    · exact absurd (Eq.symm hp1) (threadProg_ne_wr r1 s p)
    · have hp1a : Instr.wr s :: p = rem.map Instr.wr ++ Instr.rel :: threadProg r1 := hp1
      have htra : t = units.flatten ++ w := htr
      cases rem with
      | nil => simp at hp1a
      | cons ch rem =>
        simp only [List.map_cons, List.cons_append] at hp1a
        injection hp1a with h1 h2
        injection h1 with hch
        subst hch
        refine ⟨d1, d2, units, hint,
          Or.inr (Or.inl ⟨ho, ⟨c, w ++ [s], rem, r1, hA, ?_, h2, ?_⟩, hside2⟩)⟩
        · rw [hchunk]
          simp
        · show t ++ [s] = units.flatten ++ (w ++ [s])
          rw [htra, List.append_assoc]
    · exact absurd (Eq.symm hp1) (threadProg_ne_wr r1 s p)
  | rel1 o p q t =>
    obtain ⟨d1, d2, units, hint, hcase⟩ := hI
    rcases hcase with ⟨ho, ⟨r1, hA, hp1⟩, _, _⟩ |
      ⟨ho, ⟨c, w, rem, r1, hA, hchunk, hp1, htr⟩, ⟨r2, hB, hp2⟩⟩ | ⟨ho, ⟨r1, hA, hp1⟩, _⟩
    · exact absurd (Eq.symm hp1) (threadProg_ne_rel r1 p)
    · have hp1a : Instr.rel :: p = rem.map Instr.wr ++ Instr.rel :: threadProg r1 := hp1
      have htra : t = units.flatten ++ w := htr
      cases rem with
      | cons ch rem => simp at hp1a
      | nil =>
        simp only [List.map_nil, List.nil_append] at hp1a
        injection hp1a with _ hp
        rw [List.append_nil] at hchunk
        refine ⟨d1 ++ [c], d2, units ++ [printChunks c.1 c.2], ?_,
          Or.inl ⟨rfl, ⟨r1, ?_, hp⟩, ⟨r2, hB, hp2⟩, ?_⟩⟩
        · have hconc := interleave_concat_left (printChunks c.1 c.2) _ _ _ hint
          simpa [chunksOf] using hconc
        · rw [hA]
          simp
        · show t = (units ++ [printChunks c.1 c.2]).flatten
          rw [htra, ← hchunk]
          simp [List.flatten_append]
    · exact absurd (Eq.symm hp1) (threadProg_ne_rel r1 p)
  | acq2 p q t =>
    obtain ⟨d1, d2, units, hint, hcase⟩ := hI
    rcases hcase with ⟨ho, ⟨r1, hA, hp1⟩, ⟨r2, hB, hp2⟩, htr⟩ | ⟨ho, _, _⟩ | ⟨ho, _, _⟩
    · have hp2a : Instr.acq :: q = threadProg r2 := hp2
      have htra : t = units.flatten := htr
      cases r2 with
      | nil => simp [threadProg] at hp2a
      | cons c r2 =>
        rw [threadProg_cons] at hp2a
        injection hp2a with _ hp
        refine ⟨d1, d2, units, hint,
          Or.inr (Or.inr ⟨rfl, ⟨r1, hA, hp1⟩, ⟨c, [], printChunks c.1 c.2, r2, hB,
            (List.nil_append _).symm, hp, ?_⟩⟩)⟩
        show t = units.flatten ++ []
        rw [List.append_nil]
        exact htra
    · exact Option.noConfusion ho
    · exact Option.noConfusion ho
  | wr2 o s p q t =>
    obtain ⟨d1, d2, units, hint, hcase⟩ := hI
    rcases hcase with ⟨ho, _, ⟨r2, hB, hp2⟩, _⟩ |
      ⟨ho, _, ⟨r2, hB, hp2⟩⟩ | ⟨ho, hside1, ⟨c, w, rem, r2, hB, hchunk, hp2, htr⟩⟩
    · exact absurd (Eq.symm hp2) (threadProg_ne_wr r2 s q)
    · exact absurd (Eq.symm hp2) (threadProg_ne_wr r2 s q)
    · have hp2a : Instr.wr s :: q = rem.map Instr.wr ++ Instr.rel :: threadProg r2 := hp2
      have htra : t = units.flatten ++ w := htr
      cases rem with
      | nil => simp at hp2a
      | cons ch rem =>
        simp only [List.map_cons, List.cons_append] at hp2a
        injection hp2a with h1 h2
        injection h1 with hch
        subst hch
        refine ⟨d1, d2, units, hint,
          Or.inr (Or.inr ⟨ho, hside1, ⟨c, w ++ [s], rem, r2, hB, ?_, h2, ?_⟩⟩)⟩
        · rw [hchunk]
          simp
        · show t ++ [s] = units.flatten ++ (w ++ [s])
          rw [htra, List.append_assoc]
  | rel2 o p q t =>
    obtain ⟨d1, d2, units, hint, hcase⟩ := hI
    rcases hcase with ⟨ho, _, ⟨r2, hB, hp2⟩, _⟩ |
      ⟨ho, _, ⟨r2, hB, hp2⟩⟩ | ⟨ho, ⟨r1, hA, hp1⟩, ⟨c, w, rem, r2, hB, hchunk, hp2, htr⟩⟩
    · exact absurd (Eq.symm hp2) (threadProg_ne_rel r2 q)
    · exact absurd (Eq.symm hp2) (threadProg_ne_rel r2 q)
    · have hp2a : Instr.rel :: q = rem.map Instr.wr ++ Instr.rel :: threadProg r2 := hp2
      have htra : t = units.flatten ++ w := htr
      cases rem with
      | cons ch rem => simp at hp2a
      | nil =>
        simp only [List.map_nil, List.nil_append] at hp2a
        injection hp2a with _ hp
        rw [List.append_nil] at hchunk
        refine ⟨d1, d2 ++ [c], units ++ [printChunks c.1 c.2], ?_,
          Or.inl ⟨rfl, ⟨r1, hA, hp1⟩, ⟨r2, ?_, hp⟩, ?_⟩⟩
        · have hconc := interleave_concat_right (printChunks c.1 c.2) _ _ _ hint
          simpa [chunksOf] using hconc
        · rw [hB]
          simp
        · show t = (units ++ [printChunks c.1 c.2]).flatten
          rw [htra, ← hchunk]
          simp [List.flatten_append]

theorem lockInv_init (A B : List (Option String × Nat)) :
    LockInv A B ⟨none, threadProg A, threadProg B, []⟩ :=
  ⟨[], [], [], Interleave.nil, Or.inl ⟨rfl, ⟨A, rfl, rfl⟩, ⟨B, rfl, rfl⟩, rfl⟩⟩

theorem lockInv_reaches (A B : List (Option String × Nat)) {s1 s2 : CState}
    (h : Reaches s1 s2) (hI : LockInv A B s1) : LockInv A B s2 := by
  induction h with
  | refl => exact hI
  | tail _ hstep ih => exact lockInv_step A B hstep ih

theorem chunksOf_map (vs : List (Option String)) (P : Nat) :
    chunksOf (vs.map (fun v => (v, P))) = vs.map (fun v => printChunks v P) := by
  simp [chunksOf, List.map_map, Function.comp]

theorem strFoldl_shift (l : List String) (a : String) :
    l.foldl (· ++ ·) a = a ++ l.foldl (· ++ ·) "" := by
  induction l generalizing a with
  | nil => simp [List.foldl, String.append_empty]
  | cons x xs ih =>
    simp only [List.foldl]
    rw [ih (a ++ x), ih ("" ++ x), String.empty_append, String.append_assoc]

theorem strJoin_nil : String.join ([] : List String) = "" := rfl

theorem strJoin_cons (s : String) (l : List String) :
    String.join (s :: l) = s ++ String.join l := by
  show (s :: l).foldl (· ++ ·) "" = s ++ l.foldl (· ++ ·) ""
  simp only [List.foldl]
  rw [strFoldl_shift l ("" ++ s), String.empty_append]

theorem strJoin_append (l m : List String) :
    String.join (l ++ m) = String.join l ++ String.join m := by
  induction l with
  | nil => rw [List.nil_append, strJoin_nil, String.empty_append]
  | cons x xs ih =>
    rw [List.cons_append, strJoin_cons, strJoin_cons, ih, String.append_assoc]

theorem strJoin_replicate_nl (n : Nat) :
    String.join ((List.replicate n Atom.nl).map atomStr) = nlRepeat n := by
  induction n with
  | zero => rfl
  | succ n ih =>
    simp only [List.replicate_succ, List.map_cons, strJoin_cons, ih, atomStr]
    rfl

theorem startAtoms_bytes (n : Nat) :
    String.join ((startAtoms n).map atomStr) = startEmission n := by
  have hk : ("\x1b[K" : String) ++ "\r" = "\x1b[K\r" := by decide
  simp only [startAtoms, startEmission, startChunks, printChunks, printEmission, startPayload,
    pyStr, List.map_append, strJoin_append, List.map_cons, List.map_nil, strJoin_cons,
    strJoin_nil, strJoin_replicate_nl, atomStr, if_true, List.nil_append,
    String.append_empty, String.empty_append, String.append_assoc, hk]

theorem endAtoms_bytes (n : Nat) :
    String.join ((endAtoms n).map atomStr) = endEmission n := by
  have hk : ("\x1b[K" : String) ++ "\r" = "\x1b[K\r" := by decide
  simp only [endAtoms, endEmission, endChunks, printChunks, printEmission, pyStr,
    List.map_append, strJoin_append, List.map_cons, List.map_nil, strJoin_cons,
    strJoin_nil, atomStr, if_true, List.nil_append,
    String.append_empty, String.empty_append, String.append_assoc, hk]

theorem rowAfter_replicate_nl_bottom (h n : Nat) :
    List.foldl (stepRow h) (h - 1) (List.replicate n Atom.nl) = h - 1 := by
  induction n with
  | zero => rfl
  | succ n ih =>
    rw [List.replicate_succ, List.foldl_cons]
    have hstep : stepRow h (h - 1) Atom.nl = h - 1 := by
      simp [stepRow]
    rw [hstep, ih]

theorem runFmt_committed_ne_none (ops : List FOp) (st : FmtState)
    (h1 : st.pfx ≠ none) (h2 : st.committed ≠ none) :
    (runFmt st ops).1.committed ≠ none := by
  induction ops generalizing st with
  | nil => exact h2
  | cons op ops ih =>
    show (runFmt (stepFmt st op).1 ops).1.committed ≠ none
    refine ih (stepFmt st op).1 ?_ ?_
    · rw [stepFmt_pfx]
      exact h1
    · cases op with
      | commit s => exact commit_committed_ne_none st s h2
      | pending s => exact h2
      | reset =>
        show (commit ⟨st.pfx, st.pfx⟩ none).1.committed ≠ none
        exact commit_committed_ne_none ⟨st.pfx, st.pfx⟩ none h1

/-- C1: every write sequence of `OutputManager._print` — cursor down to the
position, the carriage-return/text/clear write, cursor back up — executes as
one atomic critical section under the Canvas mutex: in the two-thread
small-step semantics, where the `with self._lock:` block maps to
acquire/writes/release and a thread may be scheduled at any moment, every
complete schedule of two formatters at distinct positions `P1 ≠ P2` driven
by `commit` calls produces a sink trace that is an order-preserving
interleaving of complete, non-interleaved move-write-move units
(`printChunks`); no unit from one thread is split by the other. -/
theorem c1_print_atomic (pa pb : Option String) (ssa ssb : List (Option String))
    (P1 P2 : Nat) (hpos : P1 ≠ P2) (fin : CState)
    (hreach : Reaches ⟨none, threadProg ((commitOutputs pa ssa).map (fun v => (v, P1))),
      threadProg ((commitOutputs pb ssb).map (fun v => (v, P2))), []⟩ fin)
    (h1 : fin.p1 = []) (h2 : fin.p2 = []) :
    ∃ units, Interleave ((commitOutputs pa ssa).map (fun v => printChunks v P1))
      ((commitOutputs pb ssb).map (fun v => printChunks v P2)) units ∧
      fin.tr = units.flatten := by
  have hI := lockInv_reaches _ _ hreach (lockInv_init _ _)
  obtain ⟨d1, d2, units, hint, hcase⟩ := hI
  rcases hcase with ⟨ho, ⟨r1, hA, hp1⟩, ⟨r2, hB, hp2⟩, htr⟩ |
    ⟨ho, ⟨c, w, rem, r1, hA, hchunk, hp1, htr⟩, _⟩ |
    ⟨ho, _, ⟨c, w, rem, r2, hB, hchunk, hp2, htr⟩⟩
  · have e1 : threadProg r1 = [] := by rw [← hp1, h1]
    have e2 : threadProg r2 = [] := by rw [← hp2, h2]
    have hr1 : r1 = [] := (threadProg_nil_iff r1).1 e1
    have hr2 : r2 = [] := (threadProg_nil_iff r2).1 e2
    subst hr1
    subst hr2
    rw [List.append_nil] at hA hB
    refine ⟨units, ?_, htr⟩
    rw [← hA, ← hB, chunksOf_map, chunksOf_map] at hint
    exact hint
  · have e1 : ([] : List Instr) = rem.map Instr.wr ++ Instr.rel :: threadProg r1 := by
      rw [← h1, hp1]
    simp at e1
  · have e2 : ([] : List Instr) = rem.map Instr.wr ++ Instr.rel :: threadProg r2 := by
      rw [← h2, hp2]
    simp at e2

/-- Witness for C1: a concrete complete schedule in which thread 1 (prefix
`"a"`, position 1, one `commit "go"`) runs its whole critical section while
thread 2 has no calls; the trace is the single complete unit. -/
theorem c1_print_atomic_witness :
    ∃ units,
      Interleave ((commitOutputs (some "a") [some "go"]).map (fun v => printChunks v 1))
        ((commitOutputs (some "b") []).map (fun v => printChunks v 2)) units ∧
      (["\x1b[1B", "\ra go\x1b[K\r", "\x1b[1A"] : List String) = units.flatten := by
  have e1 : threadProg ((commitOutputs (some "a") [some "go"]).map (fun v => (v, 1))) =
      [Instr.acq, Instr.wr "\x1b[1B", Instr.wr "\ra go\x1b[K\r", Instr.wr "\x1b[1A",
        Instr.rel] := by
    decide
  have e2 : threadProg ((commitOutputs (some "b") []).map (fun v => (v, 2))) = [] := by
    decide
  have hreach :
      Reaches ⟨none, threadProg ((commitOutputs (some "a") [some "go"]).map (fun v => (v, 1))),
        threadProg ((commitOutputs (some "b") []).map (fun v => (v, 2))), []⟩
      ⟨none, [], [], ["\x1b[1B", "\ra go\x1b[K\r", "\x1b[1A"]⟩ := by
    rw [e1, e2]
    refine Relation.ReflTransGen.head (CStep.acq1 _ _ _) ?_
    refine Relation.ReflTransGen.head (CStep.wr1 _ _ _ _ _) ?_
    refine Relation.ReflTransGen.head (CStep.wr1 _ _ _ _ _) ?_
    refine Relation.ReflTransGen.head (CStep.wr1 _ _ _ _ _) ?_
    refine Relation.ReflTransGen.head (CStep.rel1 _ _ _ _) ?_
    exact Relation.ReflTransGen.refl
  exact c1_print_atomic (some "a") (some "b") [some "go"] [] 1 2 (by decide)
    ⟨none, [], [], ["\x1b[1B", "\ra go\x1b[K\r", "\x1b[1A"]⟩ hreach rfl rfl

/-- Counterexample for C2: at concrete inputs, the byte sequences the code
emits differ from the spec's emission table for all four events — `_print`
wraps the payload as `\r<payload>\x1b[K\r`, so `start()`/`end()` carry an
extra leading `\r` and trailing `\x1b[K\r`, and both write forms carry an
extra trailing `\r` after the clear-to-EOL. -/
theorem c2_emission_counterexample :
    startEmission 1 ≠ specTableStart 1 ∧
    printEmission (some "ok") 1 ≠ specTableWrite "ok" 1 ∧
    printEmission (some "ok") 0 ≠ specTableWrite "ok" 0 ∧
    endEmission 1 ≠ specTableEnd 1 := by
  decide

/-- C2 amended: the exact write calls emitted per event are: `start()` with
`n` lines emits `\r`, `n` newlines, `CSI n A`, `CSI K`, `\r` as one write;
a write of text `s` at position `pos ≠ 0` emits `CSI pos B`, then
`\r<s>\x1b[K\r`, then `CSI pos A`; a write at position 0 emits only
`\r<s>\x1b[K\r`; `end()` with `n` lines emits `\r`, `CSI n B`, `CSI K`,
`\r` as one write — and no other bytes per event. -/
theorem c2_emission_amended (n : Nat) (s : String) (pos : Nat) (hpos : pos ≠ 0) :
    startChunks n = ["\r" ++ (nlRepeat n ++ csi n "A") ++ "\x1b[K\r"] ∧
    printChunks (some s) pos = [csi pos "B", "\r" ++ s ++ "\x1b[K\r", csi pos "A"] ∧
    printChunks (some s) 0 = ["\r" ++ s ++ "\x1b[K\r"] ∧
    endChunks n = ["\r" ++ csi n "B" ++ "\x1b[K\r"] := by
  refine ⟨?_, ?_, ?_, ?_⟩ <;>
    simp [startChunks, endChunks, printChunks, startPayload, pyStr, hpos]

/-- Witness for C2 amended: the four equations evaluated at `n = 2`,
`s = "ok"`, `pos = 1`. -/
theorem c2_emission_amended_witness :
    startChunks 2 = ["\r\n\n\x1b[2A\x1b[K\r"] ∧
    printChunks (some "ok") 1 = ["\x1b[1B", "\rok\x1b[K\r", "\x1b[1A"] ∧
    printChunks (some "ok") 0 = ["\rok\x1b[K\r"] ∧
    endChunks 2 = ["\r\x1b[2B\x1b[K\r"] := by
  obtain ⟨h1, h2, h3, h4⟩ := c2_emission_amended 2 "ok" 1 (by decide)
  exact ⟨h1.trans (by decide), h2.trans (by decide), h3.trans (by decide),
    h4.trans (by decide)⟩

/-- Counterexample for C3: with prefix `""` the committed text exists (it is
not absent), and the suffix `"running"` is present and non-empty, yet
`commit` sets the committed text to the bare suffix instead of appending
`"<committed> <suffix>"` (which would be `" running"`): the source guards the
append with Python truthiness of `self._committed`, which treats the empty
string like `None`. -/
theorem c3_commit_counterexample :
    (initFmt (some "")).committed ≠ none ∧
    (commit (initFmt (some "")) (some "running")).1.committed = some "running" ∧
    some "running" ≠
      some (pyStr (initFmt (some "")).committed ++ " " ++ "running") := by
  decide

/-- C3 amended: `commit` with a present, non-empty suffix appends
`"<committed> <suffix>"` when the committed text exists AND is non-empty
(Python truthiness), sets the committed text to the suffix when the
committed text is absent or empty, and in both cases renders the new
committed text; committed text accumulates across calls, as in the
`task-a` example. -/
theorem c3_commit_amended (st : FmtState) (s : String) (hs : s ≠ "") :
    (truthy st.committed = true →
      commit st (some s) =
        (⟨st.pfx, some (pyStr st.committed ++ " " ++ s)⟩,
          some (pyStr st.committed ++ " " ++ s))) ∧
    (truthy st.committed = false →
      commit st (some s) = (⟨st.pfx, some s⟩, some s)) ∧
    commitOutputs (some "task-a") [some "running", some "done"] =
      [some "task-a running", some "task-a running done"] := by
  refine ⟨?_, ?_, by decide⟩
  · intro h
    have hts : truthy (some s) = true := by simp [truthy, hs]
    simp [commit, h, hts, pyStr]
  · intro h
    have hts : truthy (some s) = true := by simp [truthy, hs]
    simp [commit, h, hts]

/-- Witness for C3 amended: both branches evaluated concretely — a formatter
with committed text `"task-a"` and suffix `"running"` appends, and one with
empty committed text and suffix `"go"` replaces. -/
theorem c3_commit_amended_witness :
    commit (initFmt (some "task-a")) (some "running") =
      (⟨some "task-a", some "task-a running"⟩, some "task-a running") ∧
    commit (initFmt (some "")) (some "go") = (⟨some "", some "go"⟩, some "go") := by
  have h1 := (c3_commit_amended (initFmt (some "task-a")) "running" (by decide)).1
  have h2 := (c3_commit_amended (initFmt (some "")) "go" (by decide)).2.1
  exact ⟨(h1 (by decide)).trans (by decide), h2 (by decide)⟩

/-- Counterexample for C4: `pending` with the empty-string suffix renders
nothing at all, while the claim (quantified over every suffix) predicts a
render of `"<committed> <suffix>"`, here `"task-a "`. -/
theorem c4_pending_counterexample :
    pendingOut (initFmt (some "task-a")) "" = [] ∧
    ([] : List (Option String)) ≠
      [some (pyStr (initFmt (some "task-a")).committed ++ " " ++ "")] := by
  decide

/-- C4 amended: for a NON-EMPTY suffix, `pending` renders
`"<committed> <suffix>"` when the committed text exists and is non-empty and
just the suffix when the committed text is absent or empty (with an empty
suffix it renders nothing); for every suffix it never mutates the state, so
a following `commit(None)` behaves exactly as if `pending` had not been
called — as in the `task-a`/`"x"` example. -/
theorem c4_pending_amended (st : FmtState) (s : String) (hs : s ≠ "") :
    (truthy st.committed = true →
      pendingOut st s = [some (pyStr st.committed ++ " " ++ s)]) ∧
    (truthy st.committed = false → pendingOut st s = [some s]) ∧
    (∀ s2 : String, (stepFmt st (FOp.pending s2)).1 = st) ∧
    (∀ s2 : String, runFmt st [FOp.pending s2, FOp.commit none] =
      ((runFmt st [FOp.commit none]).1,
        pendingOut st s2 ++ (runFmt st [FOp.commit none]).2)) ∧
    (runFmt (initFmt (some "task-a")) [FOp.pending "x", FOp.commit none]).2 =
      [some "task-a x", some "task-a"] := by
  refine ⟨?_, ?_, fun s2 => rfl, fun s2 => rfl, by decide⟩
  · intro h
    simp [pendingOut, h, hs]
  · intro h
    simp [pendingOut, h, hs]

/-- Witness for C4 amended: evaluated at committed text `"task-a"` and
suffix `"x"`: one render of `"task-a x"`, state unchanged, and the
follow-up `commit(None)` renders `"task-a"`. -/
theorem c4_pending_amended_witness :
    pendingOut (initFmt (some "task-a")) "x" = [some "task-a x"] ∧
    (stepFmt (initFmt (some "task-a")) (FOp.pending "x")).1 = initFmt (some "task-a") ∧
    (runFmt (initFmt (some "task-a")) [FOp.pending "x", FOp.commit none]).2 =
      [some "task-a x", some "task-a"] := by
  have h := c4_pending_amended (initFmt (some "task-a")) "x" (by decide)
  exact ⟨(h.1 (by decide)).trans (by decide), h.2.2.1 "x", h.2.2.2.2⟩

/-- C5: after any sequence of commits on a formatter with prefix `p`,
`reset()` sets the committed text back to `p`, discarding all accumulated
suffixes, and passes exactly `p` to the printer; concretely,
`task-a` / commit `running` / commit `done` / reset renders `"task-a"`. -/
theorem c5_reset_restores (p : Option String) (ss : List (Option String)) :
    (reset (runFmt (initFmt p) (ss.map FOp.commit)).1).1.committed = p ∧
    (reset (runFmt (initFmt p) (ss.map FOp.commit)).1).2 = p ∧
    (runFmt (initFmt (some "task-a"))
        [FOp.commit (some "running"), FOp.commit (some "done"), FOp.reset]).2 =
      [some "task-a running", some "task-a running done", some "task-a"] := by
  have hp : (runFmt (initFmt p) (ss.map FOp.commit)).1.pfx = p := runFmt_pfx _ _
  have hres : ∀ st : FmtState, reset st = (⟨st.pfx, st.pfx⟩, st.pfx) := by
    intro st
    simp [reset, commit, truthy]
  refine ⟨?_, ?_, by decide⟩
  · rw [hres]
    exact hp
  · rw [hres]
    exact hp

/-- C6: the committed text is non-absent after any `commit` whenever the
prefix or that commit's suffix was non-empty; it starts equal to the prefix
at construction and every commit preserves definedness. -/
theorem c6_committed_defined (p : Option String) (ss : List (Option String))
    (s : Option String) (h : truthy p = true ∨ truthy s = true) :
    (initFmt p).committed = p ∧
    (commit (runFmt (initFmt p) (ss.map FOp.commit)).1 s).1.committed ≠ none := by
  refine ⟨rfl, ?_⟩
  rcases h with hp | hs
  · have hpn : p ≠ none := truthy_some_ne_none p hp
    have hrun := runFmt_committed_ne_none (ss.map FOp.commit) (initFmt p) hpn hpn
    exact commit_committed_ne_none _ s hrun
  · exact commit_truthy_arg _ s hs

/-- Witness for C6: prefix `"task-a"`, two prior commits, final
`commit(None)`. -/
theorem c6_committed_defined_witness :
    (initFmt (some "task-a")).committed = some "task-a" ∧
    (commit (runFmt (initFmt (some "task-a"))
        ([some "running", some "done"].map FOp.commit)).1 none).1.committed ≠ none :=
  c6_committed_defined (some "task-a") [some "running", some "done"] none
    (Or.inl (by decide))

/-- C7: `commit` with an empty-string suffix behaves identically to `commit`
with an absent suffix on every formatter state: same new state and same
value passed to the printer. -/
theorem c7_commit_empty_eq_absent (st : FmtState) :
    commit st (some "") = commit st none := by
  simp [commit, truthy]

/-- C8: the `start()` and `end()` emissions decompose into the modelled
atoms, and in the cursor-row model — a terminal of `hgt` rows whose cursor
sits on the bottom row, where a newline scrolls — running the bytes of
`start()` followed immediately by `end()` with `n` lines returns the cursor
to its original row (net row movement zero: up `n`, then down `n`). -/
theorem c8_start_end_net_zero (hgt n r0 : Nat) (hh : 0 < hgt) (hr : r0 = hgt - 1) :
    String.join ((startAtoms n).map atomStr) = startEmission n ∧
    String.join ((endAtoms n).map atomStr) = endEmission n ∧
    rowAfter hgt r0 (startAtoms n ++ endAtoms n) = r0 := by
  refine ⟨startAtoms_bytes n, endAtoms_bytes n, ?_⟩
  subst hr
  rw [rowAfter, startAtoms, endAtoms]
  simp only [List.foldl_append, List.foldl_cons, List.foldl_nil, stepRow]
  rw [rowAfter_replicate_nl_bottom]
  rw [Nat.sub_add_eq_max]
  exact min_eq_right (le_max_left _ _)

/-- Witness for C8: a 5-row terminal, 3 reserved lines, cursor starting on
the bottom row (row 4). -/
theorem c8_start_end_net_zero_witness :
    String.join ((startAtoms 3).map atomStr) = startEmission 3 ∧
    String.join ((endAtoms 3).map atomStr) = endEmission 3 ∧
    rowAfter 5 4 (startAtoms 3 ++ endAtoms 3) = 4 :=
  c8_start_end_net_zero 5 3 4 (by decide) (by decide)

/-- C9: a formatter constructed without a prefix has absent committed text;
`commit()` with no suffix and `reset()` keep it absent and still invoke the
printer, passing the absent value; through the Canvas write path the absent
value is interpolated by `str.format`, so the middle write is the literal
text `None` between `\r` and `\x1b[K\r`, at the bound position. -/
theorem c9_none_prefix (P : Nat) (hP : P ≠ 0) :
    (initFmt none).committed = none ∧
    commit (initFmt none) none = (initFmt none, none) ∧
    reset (initFmt none) = (initFmt none, none) ∧
    printChunks none P = [csi P "B", "\r" ++ "None" ++ "\x1b[K\r", csi P "A"] := by
  refine ⟨rfl, by decide, by decide, ?_⟩
  simp [printChunks, pyStr, hP]

/-- Witness for C9: evaluated at position 1. -/
theorem c9_none_prefix_witness :
    (initFmt none).committed = none ∧
    commit (initFmt none) none = (initFmt none, none) ∧
    reset (initFmt none) = (initFmt none, none) ∧
    printChunks none 1 = [csi 1 "B", "\r" ++ "None" ++ "\x1b[K\r", csi 1 "A"] :=
  c9_none_prefix 1 (by decide)

/-- C10: `pending` with an empty-string suffix never invokes the printer —
no value reaches the output stream — for every formatter state, while
`commit` with an empty-string suffix still re-renders the committed text
once. -/
theorem c10_pending_empty_no_render (st : FmtState) :
    pendingOut st "" = [] ∧
    stepFmt st (FOp.pending "") = (st, []) ∧
    stepFmt st (FOp.commit (some "")) = (st, [st.committed]) := by
  have h0 : pendingOut st "" = [] := by simp [pendingOut]
  refine ⟨h0, ?_, ?_⟩
  · show (st, pendingOut st "") = (st, [])
    rw [h0]
  · show ((commit st (some "")).1, [(commit st (some "")).2]) = (st, [st.committed])
    simp [commit, truthy]
